import Mathlib

/-!
Verification development for the parallel S3 range-fetch engine
(`lib/index.js` of s3-getobject-accelerator).

The JavaScript source is shallowly embedded: pure computations become Lean
functions on `Nat`/`Int`/`Rat`/`String`/`List`, the callback-driven
coordinator becomes an explicit state machine with a small-step transition
relation, and external collaborators (the XML parser, the DNS resolver, the
HTTP transport, `Math.random`) become parameters of the embedded functions.
-/

namespace S3Accel

/-! ## Retry wrapper (`retryrequest`)

Embeds the retry classification and bounded-attempt loop of `retryrequest`.
An attempt's outcome is either a transport error carrying a JS error `code`
or an HTTP response with a status code, an optional content type and a body.
The transport is modelled as a function from the attempt number (1-based)
to the outcome of that attempt.
-/

/-- Constant `RETRIABLE_NETWORK_ERROR_CODES` from the source. -/
def RETRIABLE_NETWORK_ERROR_CODES : List String :=
  ["ECONNRESET", "ENOTFOUND", "ESOCKETTIMEDOUT", "ETIMEDOUT", "ECONNREFUSED",
   "EHOSTUNREACH", "EPIPE", "EAI_AGAIN", "EBUSY"]

/-- Outcome of one underlying `request` call: a transport error with a JS
error code, or an HTTP response (status, content-type header, body). -/
inductive ReqOutcome where
  | netErr (code : String)
  | response (status : Nat) (contentType : Option String) (body : String)
deriving DecidableEq, Repr

/-- The retry condition of `retryrequest`: a network error whose `code` is in
`RETRIABLE_NETWORK_ERROR_CODES`, or a response with status `429` or
`500..599`. -/
def isRetriableOutcome : ReqOutcome → Bool
  | .netErr code => RETRIABLE_NETWORK_ERROR_CODES.contains code
  | .response status _ _ => status == 429 || (500 ≤ status && status ≤ 599)

/-- The error value `retryrequest` passes to `retry` (and ultimately to the
callback when attempts are exhausted): the transport error itself, or a fresh
`Error` describing the retriable status (whose message depends on whether the
content type is `application/xml`). -/
inductive RetryError where
  | net (code : String)
  | statusXml (status : Nat) (body : String)
  | statusOther (status : Nat) (contentType : Option String)
deriving DecidableEq, Repr

/-- Builds the error for a retriable outcome, mirroring the two
`new Error(...)` sites and the pass-through of transport errors. -/
def toRetryError : ReqOutcome → RetryError
  | .netErr code => .net code
  | .response status contentType body =>
      if contentType = some "application/xml" then .statusXml status body
      else .statusOther status contentType

/-- Final result delivered by `retryrequest` to its callback. -/
inductive RetryResult where
  | ok (status : Nat) (contentType : Option String) (body : String)
  | err (e : RetryError)
deriving DecidableEq, Repr

/-- The loop of `retryrequest`: attempt `attempt` issues
`outcomes attempt`; a retriable outcome is retried while
`attempt + 1 ≤ maxAttempts` (the source increments `attempt` and compares
`attempt <= retryOptions.maxAttempts`), otherwise the last error is
delivered; a non-retriable error or status is delivered as-is.
Returns the delivered result together with the index of the last attempt
made.  The abort-signal check during the backoff wait is not modelled. -/
def runRetry (outcomes : Nat → ReqOutcome) (maxAttempts : Nat) :
    Nat → RetryResult × Nat
  | attempt =>
    match h : outcomes attempt with
    | .netErr code =>
        if RETRIABLE_NETWORK_ERROR_CODES.contains code then
          if _h2 : attempt + 1 ≤ maxAttempts then
            runRetry outcomes maxAttempts (attempt + 1)
          else (.err (.net code), attempt)
        else (.err (.net code), attempt)
    | .response status contentType body =>
        if status == 429 || (500 ≤ status && status ≤ 599) then
          if _h2 : attempt + 1 ≤ maxAttempts then
            runRetry outcomes maxAttempts (attempt + 1)
          else (.err (toRetryError (.response status contentType body)), attempt)
        else (.ok status contentType body, attempt)
  termination_by attempt => maxAttempts - attempt

/-- Function `retryrequest` itself: the loop started at attempt 1. -/
def retryrequest (outcomes : Nat → ReqOutcome) (maxAttempts : Nat) :
    RetryResult × Nat :=
  runRetry outcomes maxAttempts 1

/-- The S3 `getObject` call site passes `{maxAttempts: 5}`. -/
def getObjectRetry (outcomes : Nat → ReqOutcome) : RetryResult × Nat :=
  retryrequest outcomes 5

/-- The `imdsRequest` call site passes `{maxAttempts: 3}`. -/
def imdsRetry (outcomes : Nat → ReqOutcome) : RetryResult × Nat :=
  retryrequest outcomes 3

/-- The backoff delay before re-issuing attempt `attempt` (`attempt ≥ 2`),
in milliseconds: `Math.random() * (Math.pow(2, attempt-1) * 100)` with the
random draw `r ∈ [0, 1)` made explicit. -/
def delayInMilliseconds (r : ℚ) (attempt : Nat) : ℚ :=
  r * (2 ^ (attempt - 1) * 100)

/-! ## Request executor body assembly (`request`)

Embeds the body-collection logic of `request`: with a `content-length`
header of value `N` the body buffer is `Buffer.allocUnsafe(N)` and every
arriving chunk is copied at the running offset (`chunk.copy(bodyBuffer,
bodyBufferOffset)` clamps at the end of the target buffer); without the
header the chunks are collected and concatenated by `Buffer.concat`.
Bytes are `Nat`, a buffer is a `List Nat`; the uninitialised memory
returned by `allocUnsafe` is an arbitrary list `mem` of length `N`. -/

/-- Embeds `chunk.copy(buf, offset)`: overwrite `buf` from position `offset` with
the bytes of `chunk`, clamped to the end of `buf`; the length of `buf` is
preserved and out-of-range bytes of `chunk` are dropped. -/
def copyChunk (buf : List Nat) (offset : Nat) (chunk : List Nat) : List Nat :=
  buf.take offset ++ chunk.take (buf.length - offset) ++ buf.drop (offset + chunk.length)

/-- The `res.on('data')` / `res.on('end')` accumulation when a
`content-length` header is present: fold every chunk into the preallocated
buffer `mem` (the uninitialised memory of `Buffer.allocUnsafe`), advancing
`bodyBufferOffset` by the chunk length each time, and deliver the buffer. -/
def requestBodyWithContentLength (mem : List Nat) (chunks : List (List Nat)) : List Nat :=
  (chunks.foldl (fun acc chunk => (copyChunk acc.1 acc.2 chunk, acc.2 + chunk.length))
    (mem, 0)).1

/-- The accumulation without a `content-length` header:
`Buffer.concat(bodyChunks)` in arrival order. -/
def requestBodyWithoutContentLength (chunks : List (List Nat)) : List Nat :=
  chunks.flatten

/-! ## Content-Range parsing and part scheduling (`parseContentRange`,
`downloadPart`, `start`)

`parseContentRange` parses `"bytes START-END/TOTAL"`.  The JS string
operations (`startsWith`, `substr(6)`, `split`, `parseInt`) are embedded
over `List Char`; `parseInt` returning `NaN` is modelled as `none`. -/

/-- JS `parseInt(s, 10)` restricted to the digit strings produced by S3
headers: the value of the leading run of decimal digits, `none` (`NaN`)
when there is no leading digit.  (Leading whitespace and sign handling of
`parseInt` is irrelevant for these inputs and omitted.) -/
def jsParseInt (cs : List Char) : Option Nat :=
  let ds := cs.takeWhile Char.isDigit
  if ds.isEmpty then none
  else some (ds.foldl (fun acc c => acc * 10 + (c.toNat - 48)) 0)

/-- JS `String.prototype.split(sep)` for a one-character separator. -/
def splitOnChar (sep : Char) : List Char → List (List Char)
  | [] => [[]]
  | c :: cs =>
    match splitOnChar sep cs with
    | [] => [[]]
    | g :: gs => if c = sep then [] :: g :: gs else (c :: g) :: gs

/-- The record built by `parseContentRange`; each field is an `Option Nat`
because `parseInt` yields `NaN` on a malformed component. -/
structure ContentRange where
  length : Option Nat
  startByte : Option Nat
  endByte : Option Nat
deriving DecidableEq, Repr

/-- Embeds `parseContentRange`: `undefined` unless the header starts with
`"bytes "`; otherwise split the rest at `/` into `range` and `length` and
split `range` at `-` into `startByte` and `endByte`; a missing component is
`undefined`, which `parseInt` turns into `NaN` (`none`). -/
def parseContentRange (cs : List Char) : Option ContentRange :=
  if cs.take 6 = "bytes ".toList then
    let rest := cs.drop 6
    let parts := splitOnChar '/' rest
    let range := parts.headD []
    let lengthStr := parts[1]?
    let rangeParts := splitOnChar '-' range
    let startStr := rangeParts.headD []
    let endStr := rangeParts[1]?
    some { length := lengthStr.bind jsParseInt,
           startByte := jsParseInt startStr,
           endByte := endStr.bind jsParseInt }
  else none

/-- In `start()`, range mode: `bytesToDownload` is the `length` field of the
parsed `Content-Range` header of the probe response. -/
def bytesToDownloadOfHeader (header : List Char) : Option Nat :=
  (parseContentRange header).bind (·.length)

/-- The inclusive byte range `downloadPart` requests for part `partNo`
(used for every part dispatched after the probe):
`startByte = (partNo-1)*partSizeInBytes`,
`endByte = min(startByte+partSizeInBytes-1, bytesToDownload-1)`. -/
def downloadPartRange (partSizeInBytes bytesToDownload partNo : Nat) : Nat × Nat :=
  ((partNo - 1) * partSizeInBytes,
   min ((partNo - 1) * partSizeInBytes + partSizeInBytes - 1) (bytesToDownload - 1))

/-- The inclusive byte range the probe (`start()`, range mode) requests for
part 1, before the object size is known: `bytes=0-(partSizeInBytes-1)`. -/
def probeRange (partSizeInBytes : Nat) : Nat × Nat :=
  (0, partSizeInBytes - 1)

/-- The byte range actually requested for part `n` of a range-mode
download: the probe range for part 1, `downloadPart`'s range otherwise. -/
def requestedRange (partSizeInBytes bytesToDownload n : Nat) : Nat × Nat :=
  if n = 1 then probeRange partSizeInBytes
  else downloadPartRange partSizeInBytes bytesToDownload n

/-- The total number of parts of a range-mode download: `start()` ends the
stream after the probe when `bytesToDownload <= partSizeInBytes` (one part),
and otherwise sets
`partsToDownload = Math.ceil(bytesToDownload/partSizeInBytes)`
(`Nat` ceiling division, exact for the integer sizes involved). -/
def totalParts (partSizeInBytes bytesToDownload : Nat) : Nat :=
  if bytesToDownload ≤ partSizeInBytes then 1
  else (bytesToDownload + partSizeInBytes - 1) / partSizeInBytes

/-! ## `getObject` response interpretation

Embeds the status-code dispatch of `getObject` after `retryrequest`
succeeds.  The external XML parser (`xml2js.parseString` plus the
`result.Error && result.Error.Code && result.Error.Message` check) is a
parameter: `.error` is a parse failure, `.ok (some (code, message))` a body
matching `<Error><Code>…</Code><Message>…</Message></Error>`, `.ok none`
any other parse result. -/

/-- Result delivered by `getObject`'s callback. -/
inductive GetObjectResult where
  | success (body : List Nat) (partsCount : Option Nat) (contentRange : Option String)
  | s3Error (code : String) (message : String) (statusCode : Nat)
  | xmlParseError (message : String)
  | unexpectedXml (statusCode : Nat)
  | unexpectedResponse (statusCode : Nat) (contentType : Option String)
deriving DecidableEq, Repr

/-- The response dispatch of `getObject`: status `206` is the only success;
any other status with content type `application/xml` goes through the XML
parser and becomes a structured S3 error (carrying `code`, `message`,
`statusCode`) or an unexpected-XML error; any other status becomes an
unexpected-response error. -/
def interpretGetObjectResponse (statusCode : Nat) (contentType : Option String)
    (xml : Except String (Option (String × String)))
    (body : List Nat) (partsCount : Option Nat) (contentRange : Option String) :
    GetObjectResult :=
  if statusCode = 206 then .success body partsCount contentRange
  else if contentType = some "application/xml" then
    match xml with
    | .error e => .xmlParseError e
    | .ok (some (code, message)) => .s3Error code message statusCode
    | .ok none => .unexpectedXml statusCode
  else .unexpectedResponse statusCode contentType

/-- Decides whether a `GetObjectResult` is delivered as a success
(`cb(null, data)`) rather than an error (`cb(err)`). -/
def GetObjectResult.isSuccess : GetObjectResult → Bool
  | .success _ _ _ => true
  | _ => false

/-! ## Hostname and path composition (`getHostname`, `getObject`) -/

/-- Embeds `getHostname`, which returns `bucket + ".s3." + region + ".amazonaws.com"`. -/
def getHostname (bucket region : String) : String :=
  bucket ++ ".s3." ++ region ++ ".amazonaws.com"

/-- The URI path signed in `getObject`:
`` `/${escapeKey(Key)}?${querystring.stringify(qs)}` `` — the key escaping
is applied before this function, so it takes the already-escaped key and
the serialised query string. -/
def getObjectPath (escapedKey queryString : String) : String :=
  "/" ++ escapedKey ++ "?" ++ queryString

/-! ## IMDSv2 request sequence (`imds`, `imdsRequest`) -/

/-- The parts of an HTTP request fixed by `imdsRequest`. -/
structure HttpRequestModel where
  hostname : String
  method : String
  path : String
  headers : List (String × String)
deriving DecidableEq, Repr

/-- The token request issued first by `imds`:
`imdsRequest('PUT', '/latest/api/token',
{'X-aws-ec2-metadata-token-ttl-seconds': '60'}, ...)`. -/
def imdsTokenRequest : HttpRequestModel :=
  { hostname := "169.254.169.254"
    method := "PUT"
    path := "/latest/api/token"
    headers := [("X-aws-ec2-metadata-token-ttl-seconds", "60")] }

/-- The follow-up request issued by `imds` once the token is obtained:
`imdsRequest('GET', path, {'X-aws-ec2-metadata-token': token}, ...)`. -/
def imdsFollowupRequest (path token : String) : HttpRequestModel :=
  { hostname := "169.254.169.254"
    method := "GET"
    path := path
    headers := [("X-aws-ec2-metadata-token", token)] }

/-- The two-request sequence `imds(path, ...)` performs when the token
request answers `token`. -/
def imdsRequestSequence (path token : String) : List HttpRequestModel :=
  [imdsTokenRequest, imdsFollowupRequest path token]

/-! ## In-order writer (`writePart`, `drainWriteQueue`)

Embeds the write-side state of the coordinator: `lastWrittenPartNo`, the
`partsWaitingForWrite` object (an association list keyed by part number),
and — as the observable of the sink — the chronological list of `(partNo,
chunk)` pairs handed to `stream.write`/`stream.end`.  The probe write of
part 1 has already completed when this subsystem starts, so the initial
state has `lastWrittenPartNo = 1` and an empty log, and the log covers
parts `2, 3, …`.  Chunks are an arbitrary type `α`.  The asynchronous
`write(chunk, cb)` / `process.nextTick(drainWriteQueue)` hand-off is
collapsed into the direct recursion it implements: after a successful write
the queue is drained until the next part number is missing. -/

/-- State of the in-order writer. -/
structure WriterState (α : Type) where
  lastWrittenPartNo : Nat
  partsWaitingForWrite : List (Nat × α)
  written : List (Nat × α)
deriving DecidableEq, Repr

/-- Looks up `partsWaitingForWrite[partNo]`. -/
def lookupPart {α : Type} (waiting : List (Nat × α)) (partNo : Nat) : Option α :=
  (waiting.find? (fun pc => pc.1 == partNo)).map (·.2)

/-- Embeds `delete partsWaitingForWrite[partNo]`. -/
def erasePart {α : Type} (waiting : List (Nat × α)) (partNo : Nat) : List (Nat × α) :=
  waiting.eraseP (fun pc => pc.1 == partNo)

/-- The cascade of `drainWriteQueue` → `writePart` on the fast path: as
long as `partsWaitingForWrite[lastWrittenPartNo+1]` exists, remove it,
write it to the sink and advance `lastWrittenPartNo`. -/
def drainWriteQueue {α : Type} (s : WriterState α) : WriterState α :=
  match h : lookupPart s.partsWaitingForWrite (s.lastWrittenPartNo + 1) with
  | none => s
  | some chunk =>
      drainWriteQueue
        { lastWrittenPartNo := s.lastWrittenPartNo + 1
          partsWaitingForWrite := erasePart s.partsWaitingForWrite (s.lastWrittenPartNo + 1)
          written := s.written ++ [(s.lastWrittenPartNo + 1, chunk)] }
  termination_by s.partsWaitingForWrite.length
  decreasing_by
    have key : ∀ (w : List (Nat × α)), ∀ k c, lookupPart w k = some c →
        (erasePart w k).length < w.length := by
      intro w
      induction w with
      | nil => intro k c hw; simp [lookupPart] at hw
      | cons pc rest ih =>
        intro k c hw
        by_cases hk : (pc.1 == k) = true
        · simp [erasePart, List.eraseP_cons, hk]
        · have hk' : (pc.1 == k) = false := by simpa using hk
          have hw' : lookupPart rest k = some c := by
            simpa [lookupPart, List.find?_cons, hk'] using hw
          have hlt := ih k c hw'
          simp only [erasePart, List.eraseP_cons, hk', cond_false] at hlt ⊢
          simp only [List.length_cons]
          omega
    exact key _ _ _ h

/-- Embeds `writePart(partNo, chunk, cb)`: when `lastWrittenPartNo ==
partNo-1` the chunk goes to the sink, `lastWrittenPartNo` becomes `partNo`,
and the write queue is drained; otherwise the part is buffered in
`partsWaitingForWrite` until its turn. -/
def writePart {α : Type} (partNo : Nat) (chunk : α) (s : WriterState α) :
    WriterState α :=
  if s.lastWrittenPartNo = partNo - 1 then
    drainWriteQueue
      { lastWrittenPartNo := partNo
        partsWaitingForWrite := s.partsWaitingForWrite
        written := s.written ++ [(partNo, chunk)] }
  else
    { s with partsWaitingForWrite := (partNo, chunk) :: s.partsWaitingForWrite }

/-- The writer state after the probe write of part 1 has completed:
`lastWrittenPartNo = 1`, nothing buffered, nothing beyond the probe
written. -/
def initWriter (α : Type) : WriterState α := ⟨1, [], []⟩

/-- Runs the writer over a download-completion sequence: each element is a
part number with its downloaded bytes, in the order the downloads finished;
each completion invokes `writePart`. -/
def runArrivals {α : Type} (s : WriterState α) (arrivals : List (Nat × α)) :
    WriterState α :=
  arrivals.foldl (fun s pc => writePart pc.1 pc.2 s) s

/-! ## Download coordinator (`downloadNextPart`, `startDownloadingParts`,
`downloadPart`, `abortDownloads`)

Embeds the dispatch side of the coordinator as a small-step transition
system.  A state carries `nextPartNo`, `partsToDownload`, the key set of
the `partsDownloading` object (the parts whose GET is in flight), the
number of pending invocations of `downloadNextPart` (the `for` loop of
`startDownloadingParts` and the `process.nextTick(downloadNextPart)`
scheduled at each completed download), the `aborted` flag, the `abort()`
calls made on in-flight requests, and the chronological `stream.destroy`
log.  Errors are strings. -/

/-- Coordinator state (dispatch side). -/
structure Coord where
  nextPartNo : Nat
  partsToDownload : Nat
  downloading : List Nat
  pendingTicks : Nat
  aborted : Bool
  cancelled : List Nat
  destroyLog : List String
deriving DecidableEq, Repr

/-- Embeds `abortDownloads(err)`: when not yet aborted, set the flag,
call `.abort()` on every in-flight request and destroy the stream with
`err`; afterwards a no-op. -/
def abortDownloads (err : String) (s : Coord) : Coord :=
  if s.aborted = false then
    { s with aborted := true
             cancelled := s.cancelled ++ s.downloading
             destroyLog := s.destroyLog ++ [err] }
  else s

/-- Embeds `Object.keys(partsDownloading).length`, the value returned by
the public `partsDownloading()`. -/
def partsDownloadingCount (s : Coord) : Nat := s.downloading.length

/-- Small-step transitions of the dispatch side.

* `dispatch` / `dispatchIdle`: one pending `downloadNextPart` invocation
  runs; if `nextPartNo <= partsToDownload` it claims `nextPartNo`
  (incrementing it) and registers the part in `partsDownloading`, else it
  does nothing.
* `completeOk`: the GET of an in-flight part succeeds; `downloadPart`'s
  callback removes it from `partsDownloading` and exactly one new
  `downloadNextPart` invocation is scheduled via `process.nextTick`
  (after `part:downloaded` or after the write callback, depending on
  `waitForWriteBeforeDownloladingNextPart` — either way one per completed
  download).
* `completeErr`: the GET fails (or was cancelled); the part is removed
  from `partsDownloading` and `abortDownloads(err)` runs; no new
  invocation is scheduled. -/
inductive CoordStep : Coord → Coord → Prop where
  | dispatch (s : Coord) (h : s.pendingTicks ≠ 0)
      (hn : s.nextPartNo ≤ s.partsToDownload) :
      CoordStep s { s with pendingTicks := s.pendingTicks - 1
                           nextPartNo := s.nextPartNo + 1
                           downloading := s.nextPartNo :: s.downloading }
  | dispatchIdle (s : Coord) (h : s.pendingTicks ≠ 0)
      (hn : ¬ s.nextPartNo ≤ s.partsToDownload) :
      CoordStep s { s with pendingTicks := s.pendingTicks - 1 }
  | completeOk (s : Coord) (p : Nat) (h : p ∈ s.downloading) :
      CoordStep s { s with downloading := s.downloading.erase p
                           pendingTicks := s.pendingTicks + 1 }
  | completeErr (s : Coord) (p : Nat) (err : String) (h : p ∈ s.downloading) :
      CoordStep s (abortDownloads err { s with downloading := s.downloading.erase p })

/-- The coordinator state right after the probe completed and
`startDownloadingParts()` queued its `concurrency` calls to
`downloadNextPart`: `nextPartNo = 2`, nothing in flight yet. -/
def initCoord (concurrency partsToDownload : Nat) : Coord :=
  { nextPartNo := 2
    partsToDownload := partsToDownload
    downloading := []
    pendingTicks := concurrency
    aborted := false
    cancelled := []
    destroyLog := [] }

/-- States reachable from the start of multi-part dispatch. -/
def CoordReachable (concurrency partsToDownload : Nat) (s : Coord) : Prop :=
  Relation.ReflTransGen CoordStep (initCoord concurrency partsToDownload) s

/-- How a non-retriable outcome is delivered to `retryrequest`'s caller
as-is: `cb(err)` for a transport error, `cb(null, res, body)` for a
response. -/
def deliverOutcome : ReqOutcome → RetryResult
  | .netErr code => .err (.net code)
  | .response status contentType body => .ok status contentType body

/-- Invariant of the writer reachable states: the log holds exactly parts
`2..lastWrittenPartNo` in ascending order, every buffered part is strictly
beyond `lastWrittenPartNo + 1` (the drain has run to quiescence), and the
buffer holds at most one chunk per part. -/
def WriterInv {α : Type} (s : WriterState α) : Prop :=
  1 ≤ s.lastWrittenPartNo ∧
  s.written.map Prod.fst = List.range' 2 (s.lastWrittenPartNo - 1) ∧
  (∀ q ∈ s.partsWaitingForWrite.map Prod.fst, s.lastWrittenPartNo + 1 < q) ∧
  (s.partsWaitingForWrite.map Prod.fst).Nodup

/-- Weakening of `WriterInv` holding just before the queue is drained:
buffered parts are beyond `lastWrittenPartNo`, but the immediate successor
may be buffered. -/
def WriterPreInv {α : Type} (s : WriterState α) : Prop :=
  1 ≤ s.lastWrittenPartNo ∧
  s.written.map Prod.fst = List.range' 2 (s.lastWrittenPartNo - 1) ∧
  (∀ q ∈ s.partsWaitingForWrite.map Prod.fst, s.lastWrittenPartNo < q) ∧
  (s.partsWaitingForWrite.map Prod.fst).Nodup

/-!
# Theorems
-/

theorem runRetry_spec (outcomes : Nat → ReqOutcome) (maxA : Nat) :
    ∀ fuel a, maxA - a = fuel → 1 ≤ a → a ≤ maxA →
      a ≤ (runRetry outcomes maxA a).2 ∧
      (runRetry outcomes maxA a).2 ≤ maxA ∧
      (∀ k, a ≤ k → k < (runRetry outcomes maxA a).2 →
        isRetriableOutcome (outcomes k) = true) ∧
      (if isRetriableOutcome (outcomes (runRetry outcomes maxA a).2) = true
       then (runRetry outcomes maxA a).2 = maxA ∧
         (runRetry outcomes maxA a).1 =
           .err (toRetryError (outcomes (runRetry outcomes maxA a).2))
       else (runRetry outcomes maxA a).1 =
         deliverOutcome (outcomes (runRetry outcomes maxA a).2)) := by
  intro fuel
  induction fuel with
  | zero =>
    intro a hfuel ha hmax
    have haeq : a = maxA := by omega
    have hguard : ¬ a + 1 ≤ maxA := by omega
    rcases hout : outcomes a with code | ⟨st, ct, b⟩
    · cases hr : RETRIABLE_NETWORK_ERROR_CODES.contains code with
      | true =>
        rw [List.elem_iff] at hr
        have hval : runRetry outcomes maxA a = (.err (.net code), a) := by
          rw [runRetry, hout]
          simp [hr, hguard]
        rw [hval]
        refine ⟨Nat.le_refl a, hmax, by omega, ?_⟩
        simp [hout, isRetriableOutcome, hr, toRetryError]
        omega
      | false =>
        have hmem : code ∉ RETRIABLE_NETWORK_ERROR_CODES := by simpa using hr
        have hval : runRetry outcomes maxA a = (.err (.net code), a) := by
          rw [runRetry, hout]
          simp [hmem]
        rw [hval]
        refine ⟨Nat.le_refl a, hmax, by omega, ?_⟩
        simp [hout, isRetriableOutcome, hmem, deliverOutcome]
    · cases hr : (st == 429 || (500 ≤ st && st ≤ 599)) with
      | true =>
        have hval : runRetry outcomes maxA a =
            (.err (toRetryError (.response st ct b)), a) := by
          rw [runRetry, hout]
          simp [hr, hguard]
        rw [hval]
        refine ⟨Nat.le_refl a, hmax, by omega, ?_⟩
        simp [hout, isRetriableOutcome, hr]
        omega
      | false =>
        have hval : runRetry outcomes maxA a = (.ok st ct b, a) := by
          rw [runRetry, hout]
          simp [hr]
        rw [hval]
        refine ⟨Nat.le_refl a, hmax, by omega, ?_⟩
        simp [hout, isRetriableOutcome, hr, deliverOutcome]
  | succ fuel ih =>
    intro a hfuel ha hmax
    have hguard : a + 1 ≤ maxA := by omega
    rcases hout : outcomes a with code | ⟨st, ct, b⟩
    · cases hr : RETRIABLE_NETWORK_ERROR_CODES.contains code with
      | true =>
        rw [List.elem_iff] at hr
        have hval : runRetry outcomes maxA a = runRetry outcomes maxA (a + 1) := by
          rw [runRetry, hout]
          simp [hr, hguard]
        obtain ⟨ih1, ih2, ih3, ih4⟩ := ih (a + 1) (by omega) (by omega) hguard
        rw [hval]
        refine ⟨by omega, ih2, ?_, ih4⟩
        intro k hk1 hk2
        rcases Nat.eq_or_lt_of_le hk1 with hk | hk
        · subst hk
          simp [isRetriableOutcome, hout, hr]
        · exact ih3 k (by omega) hk2
      | false =>
        have hmem : code ∉ RETRIABLE_NETWORK_ERROR_CODES := by simpa using hr
        have hval : runRetry outcomes maxA a = (.err (.net code), a) := by
          rw [runRetry, hout]
          simp [hmem]
        rw [hval]
        refine ⟨Nat.le_refl a, hmax, by omega, ?_⟩
        simp [hout, isRetriableOutcome, hmem, deliverOutcome]
    · cases hr : (st == 429 || (500 ≤ st && st ≤ 599)) with
      | true =>
        have hval : runRetry outcomes maxA a = runRetry outcomes maxA (a + 1) := by
          rw [runRetry, hout]
          simp [hr, hguard]
        obtain ⟨ih1, ih2, ih3, ih4⟩ := ih (a + 1) (by omega) (by omega) hguard
        rw [hval]
        refine ⟨by omega, ih2, ?_, ih4⟩
        intro k hk1 hk2
        rcases Nat.eq_or_lt_of_le hk1 with hk | hk
        · subst hk
          simp only [hout, isRetriableOutcome]
          exact hr
        · exact ih3 k (by omega) hk2
      | false =>
        have hval : runRetry outcomes maxA a = (.ok st ct b, a) := by
          rw [runRetry, hout]
          simp [hr]
        rw [hval]
        refine ⟨Nat.le_refl a, hmax, by omega, ?_⟩
        simp [hout, isRetriableOutcome, hr, deliverOutcome]


/-- C4: the retry wrapper retries exactly on the fixed retriable set —
network errors with code in `ECONNRESET, ENOTFOUND, ESOCKETTIMEDOUT,
ETIMEDOUT, ECONNREFUSED, EHOSTUNREACH, EPIPE, EAI_AGAIN, EBUSY`, or HTTP
status 429 or 500–599; any other outcome is delivered as-is at the first
non-retriable attempt; the number of attempts never exceeds `maxAttempts`
(5 for S3 `getObject`, 3 for IMDS requests); and when attempts are
exhausted the error of the last attempt is surfaced. -/
theorem c4_retry_classification :
    (∀ code, isRetriableOutcome (.netErr code) = true ↔
      code ∈ ["ECONNRESET", "ENOTFOUND", "ESOCKETTIMEDOUT", "ETIMEDOUT",
              "ECONNREFUSED", "EHOSTUNREACH", "EPIPE", "EAI_AGAIN", "EBUSY"]) ∧
    (∀ st ct b, isRetriableOutcome (.response st ct b) = true ↔
      st = 429 ∨ (500 ≤ st ∧ st ≤ 599)) ∧
    (∀ outcomes maxA, 1 ≤ maxA →
      1 ≤ (retryrequest outcomes maxA).2 ∧
      (retryrequest outcomes maxA).2 ≤ maxA ∧
      (∀ k, 1 ≤ k → k < (retryrequest outcomes maxA).2 →
        isRetriableOutcome (outcomes k) = true) ∧
      (if isRetriableOutcome (outcomes (retryrequest outcomes maxA).2) = true
       then (retryrequest outcomes maxA).2 = maxA ∧
         (retryrequest outcomes maxA).1 =
           .err (toRetryError (outcomes (retryrequest outcomes maxA).2))
       else (retryrequest outcomes maxA).1 =
         deliverOutcome (outcomes (retryrequest outcomes maxA).2))) ∧
    (∀ outcomes, (getObjectRetry outcomes).2 ≤ 5) ∧
    (∀ outcomes, (imdsRetry outcomes).2 ≤ 3) := by
  have hspec : ∀ (outcomes : Nat → ReqOutcome) (maxA : Nat), 1 ≤ maxA →
      1 ≤ (retryrequest outcomes maxA).2 ∧
      (retryrequest outcomes maxA).2 ≤ maxA ∧
      (∀ k, 1 ≤ k → k < (retryrequest outcomes maxA).2 →
        isRetriableOutcome (outcomes k) = true) ∧
      (if isRetriableOutcome (outcomes (retryrequest outcomes maxA).2) = true
       then (retryrequest outcomes maxA).2 = maxA ∧
         (retryrequest outcomes maxA).1 =
           .err (toRetryError (outcomes (retryrequest outcomes maxA).2))
       else (retryrequest outcomes maxA).1 =
         deliverOutcome (outcomes (retryrequest outcomes maxA).2)) := by
    intro outcomes maxA hmax
    exact runRetry_spec outcomes maxA (maxA - 1) 1 rfl (Nat.le_refl 1) hmax
  refine ⟨?_, ?_, hspec, ?_, ?_⟩
  · intro code
    simp [isRetriableOutcome, RETRIABLE_NETWORK_ERROR_CODES, List.elem_iff]
  · intro st ct b
    simp [isRetriableOutcome]
  · intro outcomes
    exact (hspec outcomes 5 (by omega)).2.1
  · intro outcomes
    exact (hspec outcomes 3 (by omega)).2.1

/-- C4 witness: a transport that always answers 503 exhausts all five
attempts of an S3 request. -/
theorem c4_retry_classification_witness :
    1 ≤ (retryrequest (fun _ => .response 503 none "") 5).2 ∧
    (retryrequest (fun _ => .response 503 none "") 5).2 ≤ 5 ∧
    (getObjectRetry (fun _ => .netErr "ECONNRESET")).2 ≤ 5 ∧
    (imdsRetry (fun _ => .netErr "ECONNRESET")).2 ≤ 3 := by
  have h := c4_retry_classification
  have h3 := h.2.2.1 (fun _ => .response 503 none "") 5 (by omega)
  exact ⟨h3.1, h3.2.1, h.2.2.2.1 _, h.2.2.2.2 _⟩

theorem copyChunk_step (mem f c : List Nat) :
    copyChunk (f.take mem.length ++ mem.drop f.length) f.length c =
      (f ++ c).take mem.length ++ mem.drop (f ++ c).length := by
  set n := mem.length with hn
  have hbuflen : (f.take n ++ mem.drop f.length).length = n := by
    simp
    omega
  unfold copyChunk
  rw [hbuflen]
  rcases le_or_lt f.length n with hF | hF
  · have htakef : f.take n = f := List.take_of_length_le hF
    have h1 : (f.take n ++ mem.drop f.length).take f.length = f := by
      rw [htakef, List.take_append_eq_append_take, List.take_of_length_le (Nat.le_refl _),
        Nat.sub_self]
      simp
    have h2 : (f.take n ++ mem.drop f.length).drop (f.length + c.length) =
        mem.drop (f.length + c.length) := by
      rw [htakef, List.drop_append_eq_append_drop,
        List.drop_eq_nil_of_le (by omega : f.length ≤ f.length + c.length)]
      have : f.length + c.length - f.length = c.length := by omega
      rw [this]
      simp [List.drop_drop]
    rw [h1, h2]
    have h3 : (f ++ c).take n = f ++ c.take (n - f.length) := by
      rw [List.take_append_eq_append_take, htakef]
    rw [h3, List.length_append, List.append_assoc]
  · have hckip : n - f.length = 0 := by omega
    have hdropnil : mem.drop f.length = [] := List.drop_eq_nil_of_le (by omega)
    have htake2 : f.take n ++ ([] : List Nat) = f.take n := by simp
    rw [hdropnil, htake2]
    have h1 : (f.take n).take f.length = f.take n := by
      rw [List.take_take]
      have : min f.length n = n := by omega
      rw [this]
    have h2 : (f.take n).drop (f.length + c.length) = [] := by
      apply List.drop_eq_nil_of_le
      simp only [List.length_take]
      omega
    have h3 : (f ++ c).take n = f.take n := by
      rw [List.take_append_eq_append_take, hckip]
      simp
    have h4 : mem.drop (f ++ c).length = [] := by
      apply List.drop_eq_nil_of_le
      simp
      omega
    rw [h1, h2, h3, h4, hckip]
    simp

theorem requestBody_fold (mem : List Nat) (chunks : List (List Nat)) :
    ∀ f : List Nat,
      (chunks.foldl
        (fun acc chunk => (copyChunk acc.1 acc.2 chunk, acc.2 + chunk.length))
        (f.take mem.length ++ mem.drop f.length, f.length)).1 =
      (f ++ chunks.flatten).take mem.length ++ mem.drop (f ++ chunks.flatten).length := by
  induction chunks with
  | nil =>
    intro f
    simp
  | cons c rest ih =>
    intro f
    simp only [List.foldl_cons, List.flatten_cons]
    rw [copyChunk_step]
    have hlen : (f ++ c).length = f.length + c.length := List.length_append f c
    rw [show f.length + c.length = (f ++ c).length from hlen.symm]
    rw [ih (f ++ c)]
    simp [List.append_assoc]

/-- C10: with a `content-length` header of value `n` (modelled by the
uninitialised buffer `mem` of length `n`), `request` delivers a body of
length exactly `n` whose first bytes are the received bytes in arrival
order truncated at `n` — excess bytes are dropped, missing bytes leave the
tail of the preallocated buffer unfilled — and without the header it
delivers exactly the concatenation of the received chunks. -/
theorem c10_request_body (n : Nat) (mem : List Nat) (chunks : List (List Nat))
    (hmem : mem.length = n) :
    requestBodyWithContentLength mem chunks =
      chunks.flatten.take n ++ mem.drop chunks.flatten.length ∧
    (requestBodyWithContentLength mem chunks).length = n ∧
    requestBodyWithoutContentLength chunks = chunks.flatten := by
  have hmain : requestBodyWithContentLength mem chunks =
      chunks.flatten.take n ++ mem.drop chunks.flatten.length := by
    have h0 : ([] : List Nat).take mem.length ++ mem.drop ([] : List Nat).length = mem := by
      simp
    have hfold := requestBody_fold mem chunks []
    rw [h0] at hfold
    simp only [List.length_nil, List.nil_append] at hfold
    unfold requestBodyWithContentLength
    rw [hfold]
    simp [hmem]
  refine ⟨hmain, ?_, rfl⟩
  rw [hmain]
  simp
  omega

/-- C10 witness: `content-length` 4, five bytes arriving in two chunks
over uninitialised memory `[9, 9, 9, 9]` — the delivered body keeps the
first four received bytes; and the concatenation case. -/
theorem c10_request_body_witness :
    requestBodyWithContentLength [9, 9, 9, 9] [[1, 2], [3, 4, 5]] =
      [[1, 2], [3, 4, 5]].flatten.take 4 ++
        [9, 9, 9, 9].drop [[1, 2], [3, 4, 5]].flatten.length ∧
    (requestBodyWithContentLength [9, 9, 9, 9] [[1, 2], [3, 4, 5]]).length = 4 ∧
    requestBodyWithoutContentLength [[1, 2], [3, 4, 5]] = [[1, 2], [3, 4, 5]].flatten :=
  c10_request_body 4 [9, 9, 9, 9] [[1, 2], [3, 4, 5]] (by decide)

/-- C6: for a response with HTTP status 416 whose XML body is an S3
`<Error>` with code `InvalidRange`, `getObject` does *not* succeed with an
empty body: it surfaces a structured S3 error (the test suite's
`empty file` case expects a successful, zero-byte download here). -/
theorem c6_invalidRange_is_error :
    interpretGetObjectResponse 416 (some "application/xml")
      (.ok (some ("InvalidRange", "The requested range is not satisfiable")))
      [] none none =
      .s3Error "InvalidRange" "The requested range is not satisfiable" 416 ∧
    (interpretGetObjectResponse 416 (some "application/xml")
      (.ok (some ("InvalidRange", "The requested range is not satisfiable")))
      [] none none).isSuccess = false := by
  constructor
  · rfl
  · rfl

/-- C8: the composed request is *virtual-hosted-style*, not path-style:
the bucket appears in the hostname and the URI path holds only the escaped
key (the test suite nocks `https://s3.eu-west-1.amazonaws.com` and path
`/bucket/key`). -/
theorem c8_addressing_is_virtual_hosted :
    getHostname "bucket" "eu-west-1" = "bucket.s3.eu-west-1.amazonaws.com" ∧
    getHostname "bucket" "eu-west-1" ≠ "s3.eu-west-1.amazonaws.com" ∧
    getObjectPath "key" "versionId=version" = "/key?versionId=version" ∧
    getObjectPath "key" "versionId=version" ≠ "/bucket/key?versionId=version" := by
  refine ⟨rfl, ?_, rfl, ?_⟩ <;> decide

/-- C9: the IMDSv2 token request carries
`X-aws-ec2-metadata-token-ttl-seconds: 60` — not the `600` demanded by the
claim and by the test suite's `reqheaders` — while the follow-up GET does
carry the returned token in `X-aws-ec2-metadata-token`. -/
theorem c9_imds_ttl_header :
    imdsRequestSequence "/latest/meta-data/instance-id" "TOKEN" =
      [{ hostname := "169.254.169.254", method := "PUT",
         path := "/latest/api/token",
         headers := [("X-aws-ec2-metadata-token-ttl-seconds", "60")] },
       { hostname := "169.254.169.254", method := "GET",
         path := "/latest/meta-data/instance-id",
         headers := [("X-aws-ec2-metadata-token", "TOKEN")] }] ∧
    ("60" : String) ≠ "600" := by
  exact ⟨rfl, by decide⟩

/-- C5 (counterexample): the backoff delay is not drawn from
`[0, 2^(k-1)]` seconds and is not clamped at 20 seconds: at attempt 10
with random draw 9/10 the delay is 46080 ms, exceeding the claimed 20000 ms
cap, and at attempt 2 with draw 1 the delay is 200 ms where the claimed
scale would give 2000 ms. -/
theorem c5_delay_counterexample :
    delayInMilliseconds (9/10) 10 = 46080 ∧ (20 : ℚ) * 1000 < 46080 ∧
    delayInMilliseconds 1 2 = 200 ∧
    min ((1 : ℚ) * 2 ^ (2 - 1)) 20 * 1000 = 2000 ∧ (200 : ℚ) ≠ 2000 := by
  refine ⟨?_, by norm_num, ?_, by norm_num, by norm_num⟩ <;>
    norm_num [delayInMilliseconds]

/-- C5 (amended): for attempt `k` the delay is `r · 2^(k-1) · 100`
milliseconds for a uniform draw `r ∈ [0, 1)`: it lies in
`[0, 2^(k-1)·100)` ms — i.e. up to `2^(k-1)/10` seconds, not `2^(k-1)`
seconds — grows monotonically with the draw, and is not clamped: from
attempt 9 on it can exceed 20 seconds. -/
theorem c5_delay_amended (r : ℚ) (k : Nat) (h0 : 0 ≤ r) (h1 : r < 1) :
    0 ≤ delayInMilliseconds r k ∧
    delayInMilliseconds r k < 2 ^ (k - 1) * 100 ∧
    (∀ r', r ≤ r' → delayInMilliseconds r k ≤ delayInMilliseconds r' k) ∧
    (9 ≤ k → 20 * 1000 < delayInMilliseconds (9/10) k) := by
  have hpos : (0 : ℚ) < 2 ^ (k - 1) * 100 := by positivity
  refine ⟨mul_nonneg h0 (le_of_lt hpos), ?_, ?_, ?_⟩
  · simpa [delayInMilliseconds] using mul_lt_of_lt_one_left hpos h1
  · intro r' hr
    exact mul_le_mul_of_nonneg_right hr (le_of_lt hpos)
  · intro hk
    have hexp : (2 : ℚ) ^ 8 ≤ 2 ^ (k - 1) := by
      apply pow_le_pow_right₀ one_le_two
      omega
    have : (23040 : ℚ) ≤ delayInMilliseconds (9/10) k := by
      unfold delayInMilliseconds
      nlinarith
    linarith

/-- C5 (amended) witness: instantiation at draw 1/2, attempt 10. -/
theorem c5_delay_amended_witness :
    (0 : ℚ) ≤ delayInMilliseconds (1/2) 10 ∧
    delayInMilliseconds (1/2) 10 < 2 ^ (10 - 1) * 100 ∧
    (∀ r', (1:ℚ)/2 ≤ r' → delayInMilliseconds (1/2) 10 ≤ delayInMilliseconds r' 10) ∧
    (9 ≤ 10 → (20 : ℚ) * 1000 < delayInMilliseconds (9/10) 10) :=
  c5_delay_amended (1/2) 10 (by norm_num) (by norm_num)

/-- C2 (counterexample): the probe request of a range-mode download asks
for `bytes=0-(part_size-1)` before the object size is known, so for
`part_size = 10` and `object_size = 5` the requested end byte of part 1 is
9, not `min(1·10-1, 5-1) = 4` as the claim states. -/
theorem c2_partRange_counterexample :
    requestedRange 10 5 1 = (0, 9) ∧
    ((1 - 1) * 10, min (1 * 10 - 1) (5 - 1)) = (0, 4) ∧
    (9 : Nat) ≠ 4 := by
  refine ⟨rfl, by decide, by decide⟩

/-- C2 (amended): in range mode, with the object size `size > 0` taken from
the `total` field of the first response's `Content-Range` header, the
requested byte range of part `n` is
`[(n-1)·part_size, min(n·part_size-1, size-1)]` for every part dispatched
with the size known — that is, for every `n ≥ 2`, and also for `n = 1`
whenever `part_size ≤ size`; the probe (part 1) itself always requests
`[0, part_size-1]` because the size is not yet known when it is issued;
and the total number of parts scheduled is `⌈size / part_size⌉`. -/
theorem c2_partRange_amended (header : List Char) (cr : ContentRange)
    (size ps n : Nat)
    (hparse : parseContentRange header = some cr)
    (hcr : cr.length = some size)
    (hps : 0 < ps) (hsize : 0 < size) (hn : 1 ≤ n) :
    bytesToDownloadOfHeader header = some size ∧
    (2 ≤ n ∨ ps ≤ size →
      requestedRange ps size n = ((n - 1) * ps, min (n * ps - 1) (size - 1))) ∧
    requestedRange ps size 1 = (0, ps - 1) ∧
    totalParts ps size = (size + ps - 1) / ps := by
  refine ⟨?_, ?_, ?_, ?_⟩
  · unfold bytesToDownloadOfHeader
    rw [hparse]
    simpa using hcr
  · intro hcase
    rcases Nat.lt_or_ge n 2 with h2 | h2
    · have hn1 : n = 1 := by omega
      subst hn1
      have hle : ps ≤ size := by
        rcases hcase with h | h
        · omega
        · exact h
      have hmin : min (1 * ps - 1) (size - 1) = ps - 1 := by
        rw [Nat.min_def]
        split <;> omega
      rw [show requestedRange ps size 1 = (0, ps - 1) from rfl, hmin]
      norm_num
    · obtain ⟨m, rfl⟩ : ∃ m, n = m + 2 := ⟨n - 2, by omega⟩
      have hne : m + 2 ≠ 1 := by omega
      have hmul : (m + 2 - 1) * ps + ps = (m + 2) * ps := by
        have hm : m + 2 - 1 = m + 1 := by omega
        rw [hm]
        ring
      simp only [requestedRange, if_neg hne, downloadPartRange, Prod.mk.injEq]
      exact ⟨trivial, by omega⟩
  · simp [requestedRange, probeRange]
  · unfold totalParts
    split
    · have h1 : 1 ≤ (size + ps - 1) / ps := by
        rw [Nat.le_div_iff_mul_le hps]
        omega
      have h2 : (size + ps - 1) / ps < 2 := by
        rw [Nat.div_lt_iff_lt_mul hps]
        omega
      omega
    · rfl

/-- C2 (amended) witness: a five-part download,
`part_size = 8 MB`, `Content-Range: bytes 0-7999999/33000000`, part 2. -/
theorem c2_partRange_amended_witness :
    bytesToDownloadOfHeader ("bytes 0-7999999/33000000".toList) = some 33000000 ∧
    (2 ≤ 2 ∨ 8000000 ≤ 33000000 →
      requestedRange 8000000 33000000 2 =
        ((2 - 1) * 8000000, min (2 * 8000000 - 1) (33000000 - 1))) ∧
    requestedRange 8000000 33000000 1 = (0, 8000000 - 1) ∧
    totalParts 8000000 33000000 = (33000000 + 8000000 - 1) / 8000000 :=
  c2_partRange_amended ("bytes 0-7999999/33000000".toList)
    { length := some 33000000, startByte := some 0, endByte := some 7999999 }
    33000000 8000000 2 (by decide) rfl (by decide) (by decide) (by decide)

theorem coordStep_inv (c : Nat) (s s' : Coord) (hstep : CoordStep s s')
    (hinv : s.downloading.length + s.pendingTicks ≤ c) :
    s'.downloading.length + s'.pendingTicks ≤ c := by
  cases hstep with
  | dispatch h hn =>
    show (s.nextPartNo :: s.downloading).length + (s.pendingTicks - 1) ≤ c
    simp only [List.length_cons]
    omega
  | dispatchIdle h hn =>
    show s.downloading.length + (s.pendingTicks - 1) ≤ c
    omega
  | completeOk p hp =>
    have hlen := List.length_erase_of_mem hp
    have hpos := List.length_pos_of_mem hp
    show (s.downloading.erase p).length + (s.pendingTicks + 1) ≤ c
    omega
  | completeErr p err hp =>
    have hlen := List.length_erase_of_mem hp
    unfold abortDownloads
    split
    · show (s.downloading.erase p).length + s.pendingTicks ≤ c
      omega
    · show (s.downloading.erase p).length + s.pendingTicks ≤ c
      omega

/-- C3: at every state reachable from the start of multi-part dispatch,
the number of parts whose GET is in flight — the key count of the
`partsDownloading` object returned by the public `partsDownloading()` —
is at most the configured concurrency: `startDownloadingParts` queues
exactly `concurrency` invocations of `downloadNextPart`, each invocation
starts at most one part, and each completed download schedules at most one
further invocation. -/
theorem c3_partsDownloading_le_concurrency (concurrency partsToDownload : Nat)
    (s : Coord) (h : CoordReachable concurrency partsToDownload s) :
    partsDownloadingCount s ≤ concurrency := by
  have hinv : s.downloading.length + s.pendingTicks ≤ concurrency := by
    unfold CoordReachable at h
    induction h with
    | refl => simp [initCoord]
    | tail hst hstep ih => exact coordStep_inv concurrency _ _ hstep ih
  unfold partsDownloadingCount
  omega

/-- C3 witness: the bound at the state reached by dispatching part 2 from
the initial four-way-concurrency, six-part state. -/
theorem c3_partsDownloading_le_concurrency_witness :
    partsDownloadingCount { nextPartNo := 3
                            partsToDownload := 6
                            downloading := [2]
                            pendingTicks := 3
                            aborted := false
                            cancelled := []
                            destroyLog := [] } ≤ 4 :=
  c3_partsDownloading_le_concurrency 4 6 _
    (Relation.ReflTransGen.single
      (show CoordStep (initCoord 4 6) _ from
        CoordStep.dispatch (initCoord 4 6) (by decide) (by decide)))

/-- C7: the `aborted` flag is monotone along every coordinator transition
(and hence along every reachable execution); `abortDownloads` is a no-op
on an already-aborted state, so a second abort with any error changes
nothing; and the single effective abort marks every in-flight GET
cancelled and destroys the sink exactly once, with the supplied error. -/
theorem c7_abort_monotonic_idempotent :
    (∀ s s', CoordStep s s' → s.aborted = true → s'.aborted = true) ∧
    (∀ s s', Relation.ReflTransGen CoordStep s s' →
      s.aborted = true → s'.aborted = true) ∧
    (∀ err s, s.aborted = true → abortDownloads err s = s) ∧
    (∀ err err' s, abortDownloads err' (abortDownloads err s) = abortDownloads err s) ∧
    (∀ err s, s.aborted = false →
      (abortDownloads err s).aborted = true ∧
      (∀ p, p ∈ s.downloading → p ∈ (abortDownloads err s).cancelled) ∧
      (abortDownloads err s).destroyLog = s.destroyLog ++ [err]) := by
  have hstep : ∀ s s', CoordStep s s' → s.aborted = true → s'.aborted = true := by
    intro s s' hstep hab
    cases hstep with
    | dispatch h hn => exact hab
    | dispatchIdle h hn => exact hab
    | completeOk p hp => exact hab
    | completeErr p err hp =>
      unfold abortDownloads
      split
      · rfl
      · exact hab
  have hnoop : ∀ (err : String) (s : Coord), s.aborted = true →
      abortDownloads err s = s := by
    intro err s hab
    unfold abortDownloads
    simp [hab]
  refine ⟨hstep, ?_, hnoop, ?_, ?_⟩
  · intro s s' hrtg hab
    induction hrtg with
    | refl => exact hab
    | tail hst h1 ih => exact hstep _ _ h1 ih
  · intro err err' s
    by_cases hab : s.aborted = true
    · rw [hnoop err s hab, hnoop err' s hab]
    · have h1 : (abortDownloads err s).aborted = true := by
        unfold abortDownloads
        simp at hab
        simp [hab]
      exact hnoop err' _ h1
  · intro err s hab
    refine ⟨?_, ?_, ?_⟩
    · unfold abortDownloads
      simp [hab]
    · intro p hp
      unfold abortDownloads
      simp [hab, hp]
    · unfold abortDownloads
      simp [hab]

theorem lookupPart_cons {α : Type} (pc : Nat × α) (rest : List (Nat × α)) (k : Nat) :
    lookupPart (pc :: rest) k = if pc.1 = k then some pc.2 else lookupPart rest k := by
  unfold lookupPart
  rcases eq_or_ne pc.1 k with hk | hk
  · rw [List.find?_cons_of_pos _ (by simp [hk]), if_pos hk]
    rfl
  · rw [List.find?_cons_of_neg _ (by simp [hk]), if_neg hk]

theorem erasePart_cons {α : Type} (pc : Nat × α) (rest : List (Nat × α)) (k : Nat) :
    erasePart (pc :: rest) k = if pc.1 = k then rest else pc :: erasePart rest k := by
  unfold erasePart
  rcases eq_or_ne pc.1 k with hk | hk
  · rw [List.eraseP_cons_of_pos (by simp [hk]), if_pos hk]
  · rw [List.eraseP_cons_of_neg (by simp [hk]), if_neg hk]

theorem lookupPart_none_iff {α : Type} (w : List (Nat × α)) (k : Nat) :
    lookupPart w k = none ↔ k ∉ w.map Prod.fst := by
  induction w with
  | nil => simp [lookupPart]
  | cons pc rest ih =>
    rw [lookupPart_cons]
    rcases eq_or_ne pc.1 k with hk | hk
    · simp [hk]
    · simp [hk, ih, Ne.symm hk]

theorem lookupPart_some_mem {α : Type} (w : List (Nat × α)) (k : Nat) (c : α)
    (h : lookupPart w k = some c) : (k, c) ∈ w := by
  induction w with
  | nil => simp [lookupPart] at h
  | cons pc rest ih =>
    rw [lookupPart_cons] at h
    rcases eq_or_ne pc.1 k with hk | hk
    · rw [if_pos hk] at h
      obtain ⟨a, b⟩ := pc
      simp only at hk h
      obtain rfl := hk
      obtain rfl : b = c := Option.some.inj h
      exact List.mem_cons_self _ _
    · rw [if_neg hk] at h
      exact List.mem_cons_of_mem pc (ih h)

theorem erasePart_map_fst {α : Type} (w : List (Nat × α)) (k : Nat) :
    (erasePart w k).map Prod.fst = (w.map Prod.fst).erase k := by
  induction w with
  | nil => simp [erasePart]
  | cons pc rest ih =>
    rw [erasePart_cons]
    rcases eq_or_ne pc.1 k with hk | hk
    · rw [if_pos hk]
      simp [List.erase_cons, hk]
    · rw [if_neg hk]
      simp [List.erase_cons, hk, ih]

theorem mem_erasePart_iff {α : Type} (w : List (Nat × α)) (k : Nat) (c : α)
    (hw : (w.map Prod.fst).Nodup) (h : lookupPart w k = some c) :
    ∀ pc, pc ∈ w ↔ pc ∈ erasePart w k ∨ pc = (k, c) := by
  induction w with
  | nil => simp [lookupPart] at h
  | cons pc0 rest ih =>
    intro pc
    rw [lookupPart_cons] at h
    rw [erasePart_cons]
    rcases eq_or_ne pc0.1 k with hk | hk
    · rw [if_pos hk] at h ⊢
      obtain ⟨a, b⟩ := pc0
      simp only at hk h
      obtain rfl := hk
      obtain rfl : b = c := Option.some.inj h
      simp [or_comm]
    · rw [if_neg hk] at h ⊢
      simp only [List.map_cons, List.nodup_cons] at hw
      have := ih hw.2 h pc
      simp only [List.mem_cons, this]
      tauto

theorem drainWriteQueue_spec {α : Type} :
    ∀ (n : Nat) (s : WriterState α), s.partsWaitingForWrite.length = n →
      WriterPreInv s →
      WriterInv (drainWriteQueue s) ∧
      (∀ pc : Nat × α,
        (pc ∈ (drainWriteQueue s).written ∨
         pc ∈ (drainWriteQueue s).partsWaitingForWrite) ↔
        (pc ∈ s.written ∨ pc ∈ s.partsWaitingForWrite)) := by
  intro n
  induction n using Nat.strong_induction_on with
  | _ n ih =>
    intro s hlen hpre
    obtain ⟨h1, h2, h3, h4⟩ := hpre
    rcases hlook : lookupPart s.partsWaitingForWrite (s.lastWrittenPartNo + 1)
      with _ | c
    · have heq : drainWriteQueue s = s := by rw [drainWriteQueue, hlook]
      rw [heq]
      refine ⟨⟨h1, h2, ?_, h4⟩, fun pc => Iff.rfl⟩
      intro q hq
      have hq1 := h3 q hq
      have hne : s.lastWrittenPartNo + 1 ∉ s.partsWaitingForWrite.map Prod.fst :=
        (lookupPart_none_iff _ _).mp hlook
      rcases Nat.lt_or_ge (s.lastWrittenPartNo + 1) q with h | h
      · exact h
      · have hq2 : q = s.lastWrittenPartNo + 1 := by omega
        rw [hq2] at hq
        exact absurd hq hne
    · set s' : WriterState α :=
        { lastWrittenPartNo := s.lastWrittenPartNo + 1
          partsWaitingForWrite :=
            erasePart s.partsWaitingForWrite (s.lastWrittenPartNo + 1)
          written := s.written ++ [(s.lastWrittenPartNo + 1, c)] } with hs'
      have heq : drainWriteQueue s = drainWriteQueue s' := by
        rw [drainWriteQueue, hlook]
      have hmem_key : s.lastWrittenPartNo + 1 ∈ s.partsWaitingForWrite.map Prod.fst := by
        by_contra hcon
        rw [← lookupPart_none_iff] at hcon
        rw [hcon] at hlook
        exact Option.noConfusion hlook
      have hlt : (erasePart s.partsWaitingForWrite (s.lastWrittenPartNo + 1)).length <
          s.partsWaitingForWrite.length := by
        have hmf := erasePart_map_fst s.partsWaitingForWrite (s.lastWrittenPartNo + 1)
        have hkeylen := List.length_erase_of_mem hmem_key
        have h5 : ((erasePart s.partsWaitingForWrite (s.lastWrittenPartNo + 1)).map
            Prod.fst).length = (s.partsWaitingForWrite.map Prod.fst).length - 1 := by
          rw [hmf, hkeylen]
        simp only [List.length_map] at h5
        have hpos : 0 < s.partsWaitingForWrite.length := by
          rcases hw : s.partsWaitingForWrite with _ | ⟨x, xs⟩
          · rw [hw] at hmem_key
            simp at hmem_key
          · simp
        omega
      have hpre' : WriterPreInv s' := by
        refine ⟨?_, ?_, ?_, ?_⟩
        · show 1 ≤ s.lastWrittenPartNo + 1
          omega
        · show (s.written ++ [(s.lastWrittenPartNo + 1, c)]).map Prod.fst =
            List.range' 2 (s.lastWrittenPartNo + 1 - 1)
          simp only [List.map_append, List.map_cons, List.map_nil, h2]
          have hk : s.lastWrittenPartNo + 1 - 1 = (s.lastWrittenPartNo - 1) + 1 := by
            omega
          rw [hk, List.range'_1_concat]
          have hk2 : 2 + (s.lastWrittenPartNo - 1) = s.lastWrittenPartNo + 1 := by
            omega
          rw [hk2]
        · intro q hq
          have hq' : q ∈ (erasePart s.partsWaitingForWrite
              (s.lastWrittenPartNo + 1)).map Prod.fst := hq
          rw [erasePart_map_fst] at hq'
          have hqmem : q ∈ s.partsWaitingForWrite.map Prod.fst :=
            List.mem_of_mem_erase hq'
          have hqne : q ≠ s.lastWrittenPartNo + 1 := (h4.mem_erase_iff.mp hq').1
          have hq3 := h3 q hqmem
          show s.lastWrittenPartNo + 1 < q
          omega
        · show ((erasePart s.partsWaitingForWrite
              (s.lastWrittenPartNo + 1)).map Prod.fst).Nodup
          rw [erasePart_map_fst]
          exact h4.erase _
      have hlen' : s'.partsWaitingForWrite.length < n := by
        show (erasePart s.partsWaitingForWrite (s.lastWrittenPartNo + 1)).length < n
        omega
      obtain ⟨hinv', hmem'⟩ :=
        ih s'.partsWaitingForWrite.length hlen' s' rfl hpre'
      rw [heq]
      refine ⟨hinv', ?_⟩
      intro pc
      rw [hmem' pc]
      have hiff := mem_erasePart_iff s.partsWaitingForWrite
        (s.lastWrittenPartNo + 1) c h4 hlook pc
      simp only [hs', List.mem_append, List.mem_singleton]
      constructor
      · rintro ((hw | hw) | hw)
        · exact Or.inl hw
        · exact Or.inr (hiff.mpr (Or.inr hw))
        · exact Or.inr (hiff.mpr (Or.inl hw))
      · rintro (hw | hw)
        · exact Or.inl (Or.inl hw)
        · rcases hiff.mp hw with he | he
          · exact Or.inr he
          · exact Or.inl (Or.inr he)

theorem writePart_spec {α : Type} (p : Nat) (chunk : α) (s : WriterState α)
    (hinv : WriterInv s) (hp2 : 2 ≤ p)
    (hfreshW : p ∉ s.written.map Prod.fst)
    (hfreshQ : p ∉ s.partsWaitingForWrite.map Prod.fst) :
    WriterInv (writePart p chunk s) ∧
    (∀ pc : Nat × α,
      (pc ∈ (writePart p chunk s).written ∨
       pc ∈ (writePart p chunk s).partsWaitingForWrite) ↔
      (pc = (p, chunk) ∨ pc ∈ s.written ∨ pc ∈ s.partsWaitingForWrite)) := by
  obtain ⟨h1, h2, h3, h4⟩ := hinv
  have hplast : s.lastWrittenPartNo < p := by
    by_contra hcon
    push_neg at hcon
    apply hfreshW
    rw [h2]
    exact List.mem_range'_1.mpr ⟨hp2, by omega⟩
  unfold writePart
  rcases eq_or_ne s.lastWrittenPartNo (p - 1) with hcase | hcase
  · rw [if_pos hcase]
    set s0 : WriterState α :=
      { lastWrittenPartNo := p
        partsWaitingForWrite := s.partsWaitingForWrite
        written := s.written ++ [(p, chunk)] } with hs0
    have hpre : WriterPreInv s0 := by
      refine ⟨?_, ?_, ?_, h4⟩
      · show 1 ≤ p
        omega
      · show (s.written ++ [(p, chunk)]).map Prod.fst = List.range' 2 (p - 1)
        simp only [List.map_append, List.map_cons, List.map_nil, h2]
        have hk : p - 1 = (s.lastWrittenPartNo - 1) + 1 := by omega
        rw [hk, List.range'_1_concat]
        have hk2 : 2 + (s.lastWrittenPartNo - 1) = p := by omega
        rw [hk2]
      · intro q hq
        have hq3 := h3 q hq
        show p < q
        omega
    obtain ⟨hinv', hmem'⟩ :=
      drainWriteQueue_spec s0.partsWaitingForWrite.length s0 rfl hpre
    refine ⟨hinv', ?_⟩
    intro pc
    rw [hmem' pc]
    simp only [hs0, List.mem_append, List.mem_singleton]
    tauto
  · rw [if_neg hcase]
    have hgt : s.lastWrittenPartNo + 1 < p := by omega
    refine ⟨⟨h1, h2, ?_, ?_⟩, ?_⟩
    · intro q hq
      simp only [List.map_cons, List.mem_cons] at hq
      rcases hq with rfl | hq
      · exact hgt
      · exact h3 q hq
    · simp only [List.map_cons, List.nodup_cons]
      exact ⟨hfreshQ, h4⟩
    · intro pc
      simp only [List.mem_cons]
      tauto

theorem runArrivals_spec {α : Type} :
    ∀ (arrivals : List (Nat × α)) (s : WriterState α),
      WriterInv s →
      (arrivals.map Prod.fst).Nodup →
      (∀ pc ∈ arrivals, 2 ≤ pc.1) →
      (∀ pc ∈ arrivals, pc.1 ∉ s.written.map Prod.fst ∧
        pc.1 ∉ s.partsWaitingForWrite.map Prod.fst) →
      WriterInv (runArrivals s arrivals) ∧
      (∀ pc : Nat × α,
        (pc ∈ (runArrivals s arrivals).written ∨
         pc ∈ (runArrivals s arrivals).partsWaitingForWrite) ↔
        (pc ∈ arrivals ∨ pc ∈ s.written ∨ pc ∈ s.partsWaitingForWrite)) := by
  intro arrivals
  induction arrivals with
  | nil =>
    intro s hinv _ _ _
    refine ⟨hinv, ?_⟩
    intro pc
    simp [runArrivals]
  | cons pc0 rest ih =>
    intro s hinv hnodup h2le hdisj
    obtain ⟨hinv1, hmem1⟩ := writePart_spec pc0.1 pc0.2 s hinv
      (h2le pc0 (List.mem_cons_self _ _))
      (hdisj pc0 (List.mem_cons_self _ _)).1
      (hdisj pc0 (List.mem_cons_self _ _)).2
    have hrun : runArrivals s (pc0 :: rest) =
        runArrivals (writePart pc0.1 pc0.2 s) rest := by
      simp [runArrivals]
    rw [hrun]
    simp only [List.map_cons, List.nodup_cons] at hnodup
    have h2le' : ∀ pc ∈ rest, 2 ≤ pc.1 :=
      fun pc h => h2le pc (List.mem_cons_of_mem _ h)
    have hdisj' : ∀ pc ∈ rest,
        pc.1 ∉ (writePart pc0.1 pc0.2 s).written.map Prod.fst ∧
        pc.1 ∉ (writePart pc0.1 pc0.2 s).partsWaitingForWrite.map Prod.fst := by
      intro pc hpc
      have hne : pc.1 ≠ pc0.1 := by
        intro hcon
        apply hnodup.1
        rw [← hcon]
        exact List.mem_map_of_mem Prod.fst hpc
      have hd := hdisj pc (List.mem_cons_of_mem _ hpc)
      constructor
      · intro hcon
        rw [List.mem_map] at hcon
        obtain ⟨qc, hqc, hq1⟩ := hcon
        rcases (hmem1 qc).mp (Or.inl hqc) with rfl | hin | hin
        · exact hne hq1.symm
        · exact hd.1 (hq1 ▸ List.mem_map_of_mem Prod.fst hin)
        · exact hd.2 (hq1 ▸ List.mem_map_of_mem Prod.fst hin)
      · intro hcon
        rw [List.mem_map] at hcon
        obtain ⟨qc, hqc, hq1⟩ := hcon
        rcases (hmem1 qc).mp (Or.inr hqc) with rfl | hin | hin
        · exact hne hq1.symm
        · exact hd.1 (hq1 ▸ List.mem_map_of_mem Prod.fst hin)
        · exact hd.2 (hq1 ▸ List.mem_map_of_mem Prod.fst hin)
    obtain ⟨hinv2, hmem2⟩ := ih (writePart pc0.1 pc0.2 s) hinv1 hnodup.2 h2le' hdisj'
    refine ⟨hinv2, ?_⟩
    intro pc
    rw [hmem2 pc]
    have h1 := hmem1 pc
    have heta : (pc0.1, pc0.2) = pc0 := rfl
    rw [heta] at h1
    simp only [List.mem_cons]
    constructor
    · rintro (hw | hw)
      · tauto
      · have := h1.mp hw
        tauto
    · rintro (hw | hw | hw)
      · rcases hw with rfl | hw
        · exact Or.inr (h1.mpr (Or.inl rfl))
        · exact Or.inl hw
      · exact Or.inr (h1.mpr (Or.inr (Or.inl hw)))
      · exact Or.inr (h1.mpr (Or.inr (Or.inr hw)))

/-- C1: starting from the writer state left by the probe
(`lastWrittenPartNo = 1`), for any order in which the downloads of parts
`2..N` complete (each part exactly once), the parts are handed to the sink
in strictly ascending part order `2, 3, …, N`: at every intermediate point
the write log is exactly `2..lastWrittenPartNo` in ascending order — so
part `n` is written only after `1..n-1`, a part whose predecessor is not
yet written sits in `partsWaitingForWrite` until its turn, and right after
part `n` is written `lastWrittenPartNo = n`; at the end everything has
been written (`lastWrittenPartNo = N`, empty buffer) and the written pairs
are exactly the downloaded ones. -/
theorem c1_in_order_writes {α : Type} (N : Nat) (arrivals : List (Nat × α))
    (hN : 1 ≤ N)
    (hnodup : (arrivals.map Prod.fst).Nodup)
    (hrange : ∀ pc ∈ arrivals, 2 ≤ pc.1 ∧ pc.1 ≤ N)
    (hall : ∀ k ∈ List.range' 2 (N - 1), k ∈ arrivals.map Prod.fst) :
    ((runArrivals (initWriter α) arrivals).written.map Prod.fst =
       List.range' 2 (N - 1) ∧
     (runArrivals (initWriter α) arrivals).lastWrittenPartNo = N ∧
     (runArrivals (initWriter α) arrivals).partsWaitingForWrite = [] ∧
     (∀ pc : Nat × α,
       pc ∈ (runArrivals (initWriter α) arrivals).written ↔ pc ∈ arrivals)) ∧
    (∀ pre suf, arrivals = pre ++ suf →
      (runArrivals (initWriter α) pre).written.map Prod.fst =
        List.range' 2 ((runArrivals (initWriter α) pre).lastWrittenPartNo - 1)) := by
  have hinit : WriterInv (initWriter α) := by
    refine ⟨Nat.le_refl 1, ?_, ?_, ?_⟩ <;> simp [initWriter]
  have hprefix : ∀ pre suf, arrivals = pre ++ suf →
      WriterInv (runArrivals (initWriter α) pre) ∧
      (∀ pc : Nat × α,
        (pc ∈ (runArrivals (initWriter α) pre).written ∨
         pc ∈ (runArrivals (initWriter α) pre).partsWaitingForWrite) ↔
        pc ∈ pre) := by
    intro pre suf happ
    have hnodup' : (pre.map Prod.fst).Nodup := by
      rw [happ] at hnodup
      simp only [List.map_append] at hnodup
      exact hnodup.of_append_left
    have h2le : ∀ pc ∈ pre, 2 ≤ pc.1 := fun pc h =>
      (hrange pc (by rw [happ]; exact List.mem_append_left _ h)).1
    have hdisj : ∀ pc ∈ pre, pc.1 ∉ (initWriter α).written.map Prod.fst ∧
        pc.1 ∉ (initWriter α).partsWaitingForWrite.map Prod.fst := by
      intro pc _
      simp [initWriter]
    obtain ⟨hi, hm⟩ := runArrivals_spec pre (initWriter α) hinit hnodup' h2le hdisj
    refine ⟨hi, ?_⟩
    intro pc
    rw [hm pc]
    simp [initWriter]
  refine ⟨?_, ?_⟩
  · obtain ⟨⟨g1, g2, g3, g4⟩, gmem⟩ := hprefix arrivals [] (by simp)
    have hlastle : (runArrivals (initWriter α) arrivals).lastWrittenPartNo ≤ N := by
      rcases Nat.lt_or_ge (runArrivals (initWriter α) arrivals).lastWrittenPartNo 2
        with h | h
      · omega
      · have hmem : (runArrivals (initWriter α) arrivals).lastWrittenPartNo ∈
            (runArrivals (initWriter α) arrivals).written.map Prod.fst := by
          rw [g2]
          exact List.mem_range'_1.mpr ⟨h, by omega⟩
        rw [List.mem_map] at hmem
        obtain ⟨qc, hqc, hq1⟩ := hmem
        have hqa := (gmem qc).mp (Or.inl hqc)
        have := (hrange qc hqa).2
        omega
    have hlastge : N ≤ (runArrivals (initWriter α) arrivals).lastWrittenPartNo := by
      by_contra hcon
      push_neg at hcon
      have hkmem : (runArrivals (initWriter α) arrivals).lastWrittenPartNo + 1 ∈
          arrivals.map Prod.fst := by
        apply hall
        exact List.mem_range'_1.mpr ⟨by omega, by omega⟩
      rw [List.mem_map] at hkmem
      obtain ⟨qc, hqc, hq1⟩ := hkmem
      rcases (gmem qc).mpr hqc with hw | hw
      · have hk : qc.1 ∈ (runArrivals (initWriter α) arrivals).written.map Prod.fst :=
          List.mem_map_of_mem Prod.fst hw
        rw [g2] at hk
        have := List.mem_range'_1.mp hk
        omega
      · have := g3 qc.1 (List.mem_map_of_mem Prod.fst hw)
        omega
    have hlast : (runArrivals (initWriter α) arrivals).lastWrittenPartNo = N :=
      Nat.le_antisymm hlastle hlastge
    have hempty : (runArrivals (initWriter α) arrivals).partsWaitingForWrite = [] := by
      rw [List.eq_nil_iff_forall_not_mem]
      intro pc hpc
      have hgt := g3 pc.1 (List.mem_map_of_mem Prod.fst hpc)
      have hle := (hrange pc ((gmem pc).mp (Or.inr hpc))).2
      omega
    refine ⟨?_, hlast, hempty, ?_⟩
    · rw [g2, hlast]
    · intro pc
      have hg := gmem pc
      rw [hempty] at hg
      simpa using hg
  · intro pre suf happ
    obtain ⟨⟨p1, p2, p3, p4⟩, pmem⟩ := hprefix pre suf happ
    exact p2

/-- C1 witness: four parts, with parts 3, 2, 4 completing in that order
after the probe: the sink receives 2, 3, 4 in ascending order. -/
theorem c1_in_order_writes_witness :
    ((runArrivals (initWriter Nat) [(3, 30), (2, 20), (4, 40)]).written.map Prod.fst =
       List.range' 2 (4 - 1) ∧
     (runArrivals (initWriter Nat) [(3, 30), (2, 20), (4, 40)]).lastWrittenPartNo = 4 ∧
     (runArrivals (initWriter Nat) [(3, 30), (2, 20), (4, 40)]).partsWaitingForWrite = [] ∧
     (∀ pc : Nat × Nat,
       pc ∈ (runArrivals (initWriter Nat) [(3, 30), (2, 20), (4, 40)]).written ↔
       pc ∈ [(3, 30), (2, 20), (4, 40)])) ∧
    (∀ pre suf, ([(3, 30), (2, 20), (4, 40)] : List (Nat × Nat)) = pre ++ suf →
      (runArrivals (initWriter Nat) pre).written.map Prod.fst =
        List.range' 2 ((runArrivals (initWriter Nat) pre).lastWrittenPartNo - 1)) :=
  c1_in_order_writes 4 [(3, 30), (2, 20), (4, 40)] (by decide) (by decide)
    (by decide) (by decide)

/-- C7 witness: abort with error `boom` from the un-aborted initial state;
a second abort with a different error is a no-op. -/
theorem c7_abort_monotonic_idempotent_witness :
    (abortDownloads "boom" (initCoord 2 3)).aborted = true ∧
    abortDownloads "late" (abortDownloads "boom" (initCoord 2 3)) =
      abortDownloads "boom" (initCoord 2 3) ∧
    (abortDownloads "boom" (initCoord 2 3)).destroyLog =
      (initCoord 2 3).destroyLog ++ ["boom"] := by
  have h := c7_abort_monotonic_idempotent
  exact ⟨(h.2.2.2.2 "boom" (initCoord 2 3) rfl).1,
    h.2.2.2.1 "boom" "late" (initCoord 2 3),
    (h.2.2.2.2 "boom" (initCoord 2 3) rfl).2.2⟩

end S3Accel
